import Mathlib

/-!
Verification of the SHPL batch-accumulation and settlement-calculation engine.

The TypeScript core (src/utils/notebookUtils.ts safe-math section,
src/features/weighing/types.ts `useWeighingBatch`, and the `useSettlement`
hook) is embedded shallowly: JavaScript numbers are modelled as exact
rationals (the safe-math layer is designed to behave like fixed-point
decimal arithmetic, which rationals represent exactly), `Math.round` is
round-half-up via the integer floor, and the React state updates become
explicit state-passing functions.  `generateId()` (assumed by the code to
yield unique opaque ids) is modelled by a counter threaded through the
ledger state.
-/

namespace SHPL

/-! ### Safe arithmetic (src/utils/notebookUtils.ts)

`Math.round(x)` in JavaScript rounds half toward positive infinity:
`Math.round x = ⌊x + 1/2⌋`. -/

/-- JavaScript `Math.round`: round half toward positive infinity. -/
def jsRound (x : ℚ) : ℤ := ⌊x + 1/2⌋

/-- Internal precision factor (4 decimal places for intermediate calculations). -/
def PRECISION_FACTOR : ℚ := 10000

/-- `function toInt(n) { return Math.round(n * PRECISION_FACTOR); }` -/
def toInt (n : ℚ) : ℤ := jsRound (n * PRECISION_FACTOR)

/-- `function fromInt(n) { return n / PRECISION_FACTOR; }` -/
def fromInt (n : ℤ) : ℚ := (n : ℚ) / PRECISION_FACTOR

/-- `safeAdd(a, b) = fromInt(toInt(a) + toInt(b))` -/
def safeAdd (a b : ℚ) : ℚ := fromInt (toInt a + toInt b)

/-- `safeSub(a, b) = fromInt(toInt(a) - toInt(b))` -/
def safeSub (a b : ℚ) : ℚ := fromInt (toInt a - toInt b)

/-- `safeMult`: scale each operand by 100, round to integer, multiply,
divide by 100 * 100. -/
def safeMult (a b : ℚ) : ℚ :=
  let factor : ℚ := 100
  let intA := jsRound (a * factor)
  let intB := jsRound (b * factor)
  ((intA * intB : ℤ) : ℚ) / (factor * factor)

/-- JavaScript `Number.EPSILON` = 2^(-52). -/
def EPSILON : ℚ := 1 / 2 ^ 52

/-- `roundToTwo(num) = Math.round((num + Number.EPSILON) * 100) / 100` -/
def roundToTwo (num : ℚ) : ℚ := ((jsRound ((num + EPSILON) * 100) : ℤ) : ℚ) / 100

/-- `safeSum(values) = values.reduce((acc, val) => safeAdd(acc, val), 0)` -/
def safeSum (values : List ℚ) : ℚ := values.foldl (fun acc val => safeAdd acc val) 0

/-- `safeWeightedCalc(value, rate) = roundToTwo(safeMult(value, rate))` -/
def safeWeightedCalc (value rate : ℚ) : ℚ := roundToTwo (safeMult value rate)

/-! ### Batch ledger data model
(src/types/domain.ts and src/features/weighing/types.ts)

The ledger hook `useWeighingBatch` keeps a mapping from the composite key
`entityId:categoryId` to a batch sequence, but every weight operation
reads and writes only the entry of the currently active key.  The model
therefore keeps the batch sequence of the active key (`none` when the key
is not present in the mapping yet, exactly like a missing record entry),
together with the id counter that stands in for `generateId()`.  The
`categoryId`/`entityId` fields of entries and batches are constant
(always the active key) and are omitted. -/

/-- `status: 'open' | 'closed'` (`open` is a Lean keyword, hence `opened`). -/
inductive BatchStatus where
  | opened
  | closed
deriving DecidableEq

/-- `WeightEntry {id, value, timestamp}` with ids drawn from the counter. -/
structure WeightEntry where
  id : Nat
  value : ℚ
  timestamp : Nat
deriving DecidableEq

/-- `Batch {id, entries, status, subtotal}`. -/
structure Batch where
  id : Nat
  entries : List WeightEntry
  status : BatchStatus
  subtotal : Option ℚ
deriving DecidableEq

/-- `export const BATCH_SIZE = 5;` -/
def BATCH_SIZE : Nat := 5

/-- `createNewBatch`: fresh id, no entries, open, no subtotal. -/
def createNewBatch (id : Nat) : Batch :=
  { id := id, entries := [], status := .opened, subtotal := none }

/-- `calculateSubtotal = entries.reduce((sum, entry) => sum + entry.value, 0)` -/
def calculateSubtotal (entries : List WeightEntry) : ℚ :=
  entries.foldl (fun sum entry => sum + entry.value) 0

/-- The re-derivation step shared verbatim by `addWeight` and `deleteWeight`:
`status: isComplete ? 'closed' : 'open'`,
`subtotal: isComplete ? calculateSubtotal(updatedEntries) : null`. -/
def recalcBatch (batch : Batch) (updatedEntries : List WeightEntry) : Batch :=
  let isComplete := BATCH_SIZE ≤ updatedEntries.length
  { batch with
    entries := updatedEntries,
    status := if isComplete then .closed else .opened,
    subtotal := if isComplete then some (calculateSubtotal updatedEntries) else none }

/-- Ledger state for the active `entityId:categoryId` key: the stored batch
sequence (`none` = key absent from `batchesByKey`) and the `generateId`
counter. -/
structure LedgerState where
  batches : Option (List Batch)
  nextId : Nat
deriving DecidableEq

/-- Initial state: no batches stored for the key yet. -/
def initState : LedgerState := { batches := none, nextId := 0 }

/-- Body of `addWeight` after `existingBatches` has been resolved.
Mirrors: inspect the last batch; closed → start a new batch holding just
the new entry; open → append the entry, close the batch when it reaches
`BATCH_SIZE` and then append a fresh empty batch.  The source indexes
`existingBatches[existingBatches.length - 1]` unconditionally; an empty
sequence (which would throw in JS) is never produced by any operation, and
the `none` branch below is dead code returning the input unchanged. -/
def addWeightCore (value : ℚ) (now : Nat) (existingBatches : List Batch) (nid : Nat) :
    LedgerState :=
  let newEntry : WeightEntry := { id := nid, value := value, timestamp := now }
  match existingBatches.getLast? with
  | none => { batches := some existingBatches, nextId := nid + 1 }
  | some currentBatch =>
    if currentBatch.status = .closed then
      let newBatch : Batch := { createNewBatch (nid + 1) with entries := [newEntry] }
      { batches := some (existingBatches ++ [newBatch]), nextId := nid + 2 }
    else
      let updatedEntries := currentBatch.entries ++ [newEntry]
      let updatedBatch := recalcBatch currentBatch updatedEntries
      let updatedBatches := existingBatches.dropLast ++ [updatedBatch]
      if BATCH_SIZE ≤ updatedEntries.length then
        { batches := some (updatedBatches ++ [createNewBatch (nid + 1)]), nextId := nid + 2 }
      else
        { batches := some updatedBatches, nextId := nid + 1 }

/-- `addWeight(value)`: refuse `value <= 0`; otherwise
`existingBatches = prev[currentKey] || [createNewBatch(...)]` and the core
above.  Returns the success flag together with the new state. -/
def addWeight (value : ℚ) (now : Nat) (s : LedgerState) : Bool × LedgerState :=
  if value ≤ 0 then (false, s)
  else
    match s.batches with
    | none => (true, addWeightCore value now [createNewBatch s.nextId] (s.nextId + 1))
    | some existingBatches => (true, addWeightCore value now existingBatches s.nextId)

/-- The `for (const batch of existingBatches)` loop of `deleteWeight`.
`total` is `existingBatches.length` and `i` the index of the current batch
(`existingBatches.indexOf(batch)` in the source).  Batches not containing
the entry are copied; a batch that becomes empty is dropped, except that
the sole surviving last batch is replaced by a fresh open batch; otherwise
the batch is re-derived by `recalcBatch`.  Returns the accumulated
sequence, the `found` flag and the id counter. -/
def deleteScan (entryId : Nat) (total : Nat) :
    List Batch → Nat → List Batch → Bool → Nat → List Batch × Bool × Nat
  | [], _, acc, found, nid => (acc, found, nid)
  | batch :: rest, i, acc, found, nid =>
    if batch.entries.any (fun e => e.id = entryId) then
      let updatedEntries := batch.entries.filter (fun e => ¬ e.id = entryId)
      if updatedEntries.length = 0 then
        if acc.length = 0 ∧ i = total - 1 then
          deleteScan entryId total rest (i + 1) (acc ++ [createNewBatch nid]) true (nid + 1)
        else
          deleteScan entryId total rest (i + 1) acc true nid
      else
        deleteScan entryId total rest (i + 1) (acc ++ [recalcBatch batch updatedEntries]) true nid
    else
      deleteScan entryId total rest (i + 1) (acc ++ [batch]) found nid

/-- `deleteWeight` invariant restoration, first half:
`if (updatedBatches.length === 0) { updatedBatches.push(createNewBatch(...)) }`. -/
def ensureNonEmpty (bs : List Batch) (nid : Nat) : List Batch × Nat :=
  if bs.length = 0 then (bs ++ [createNewBatch nid], nid + 1) else (bs, nid)

/-- `deleteWeight` invariant restoration, second half: if the last batch is
closed, append a fresh open batch. -/
def ensureLastOpen (bs : List Batch) (nid : Nat) : List Batch × Nat :=
  match bs.getLast? with
  | some lastBatch =>
    if lastBatch.status = .closed then (bs ++ [createNewBatch nid], nid + 1) else (bs, nid)
  | none => (bs, nid)

/-- `deleteWeight(entryId)`: scan all batches of the active key, then
restore the invariants: if no batch survived, push a fresh open batch; if
the last batch ended up closed, append a fresh open batch.  Returns the
`found` flag together with the new state. -/
def deleteWeight (entryId : Nat) (s : LedgerState) : Bool × LedgerState :=
  match s.batches with
  | none => (false, s)
  | some existingBatches =>
    let r := deleteScan entryId existingBatches.length existingBatches 0 [] false s.nextId
    let u1 := ensureNonEmpty r.1 r.2.2
    let u2 := ensureLastOpen u1.1 u1.2
    (r.2.1, { batches := some u2.1, nextId := u2.2 })

/-- `updateWeight(entryId, newValue)`: refuse `newValue <= 0`; otherwise
replace the value in place and recompute the subtotal of the owning batch
(`subtotal: batch.status === 'closed' ? calculateSubtotal(...) : null`).
Returns whether the entry was found. -/
def updateWeight (entryId : Nat) (newValue : ℚ) (s : LedgerState) : Bool × LedgerState :=
  if newValue ≤ 0 then (false, s)
  else
    match s.batches with
    | none => (false, s)
    | some existingBatches =>
      let found := existingBatches.any (fun b => b.entries.any (fun e => e.id = entryId))
      let updatedBatches := existingBatches.map (fun batch =>
        if batch.entries.any (fun e => e.id = entryId) then
          let updatedEntries := batch.entries.map (fun e =>
            if e.id = entryId then { e with value := newValue } else e)
          { batch with
            entries := updatedEntries,
            subtotal :=
              if batch.status = .closed then some (calculateSubtotal updatedEntries) else none }
        else batch)
      (found, { batches := some updatedBatches, nextId := s.nextId })

/-- Derived view `activeBatches`: the stored sequence, or a single fresh
open batch when the key is absent or maps to an empty sequence
(`if (!batches || batches.length === 0)`). -/
def activeBatches (s : LedgerState) : List Batch :=
  match s.batches with
  | none => [createNewBatch s.nextId]
  | some batches => if batches.length = 0 then [createNewBatch s.nextId] else batches

/-- `getCurrentBatch = activeBatches.find(b => b.status === 'open') || null` -/
def getCurrentBatch (s : LedgerState) : Option Batch :=
  (activeBatches s).find? (fun b => b.status = .opened)

/-- `getTotalWeight`: plain `+`-reduction over all entries of all active
batches. -/
def getTotalWeight (s : LedgerState) : ℚ :=
  (activeBatches s).foldl
    (fun total batch => total + batch.entries.foldl (fun sum entry => sum + entry.value) 0) 0

/-- `getTotalEntries`: entry count over all active batches. -/
def getTotalEntries (s : LedgerState) : Nat :=
  (activeBatches s).foldl (fun count batch => count + batch.entries.length) 0

/-- One ledger operation, as invoked from the UI with caller-chosen
arguments. -/
inductive Step : LedgerState → LedgerState → Prop where
  | add (value : ℚ) (now : Nat) (s : LedgerState) : Step s (addWeight value now s).2
  | del (entryId : Nat) (s : LedgerState) : Step s (deleteWeight entryId s).2
  | upd (entryId : Nat) (newValue : ℚ) (s : LedgerState) :
      Step s (updateWeight entryId newValue s).2

/-- Ledger states reachable from the initial state by ledger operations. -/
inductive Reachable : LedgerState → Prop where
  | init : Reachable initState
  | step {s t : LedgerState} : Reachable s → Step s t → Reachable t

/-! ### Settlement calculator (`useSettlement`, src/types/domain.ts)

`batchesByKey` is modelled as an association list from the
(entityId, categoryId) pair — the parsed form of the composite key
`entityId:categoryId` — to a batch sequence.  JS objects used as string
maps (`weights`, `prices`) become association lists in which a read sees
the most recently written binding; `x[k] || 0` is `(lookup k).getD 0`. -/

/-- `Category {id, name, color}` as consumed by the settlement view. -/
structure SCategory where
  id : String
  name : String
  color : String
deriving DecidableEq

/-- `CategoryLine` of the settlement breakdown. -/
structure CategoryLine where
  categoryId : String
  categoryName : String
  categoryColor : String
  totalWeight : ℚ
  unitPrice : ℚ
  subtotal : ℚ
deriving DecidableEq

/-- `SettlementData {prices, freightRate, sackValue}`. -/
structure SettlementData where
  prices : List (String × ℚ)
  freightRate : ℚ
  sackValue : ℚ
deriving DecidableEq

/-- `SettlementSummary`. -/
structure SettlementSummary where
  categoryBreakdown : List CategoryLine
  grossTotal : ℚ
  totalWeight : ℚ
  freightTotal : ℚ
  sackValue : ℚ
  finalAmount : ℚ
deriving DecidableEq

/-- JS object read with a 0 default (`record[key] || 0`), used for the
`weights` and `prices` string-keyed objects. -/
def lookup0 : List (String × ℚ) → String → ℚ
  | [], _ => 0
  | (k2, v) :: rest, k => if k2 = k then v else lookup0 rest k

/-- The `weightsByCategory` memo: for every key of the current entity,
`batches.reduce((total, batch) => safeAdd(total, safeSum(batch.entries.map(e => e.value))), 0)`,
accumulated into `weights[catId] = safeAdd(weights[catId] || 0, categoryWeight)`. -/
def weightsByCategory (entityId : String)
    (batchesByKey : List ((String × String) × List Batch)) : List (String × ℚ) :=
  batchesByKey.foldl
    (fun weights kv =>
      if kv.1.1 = entityId then
        let categoryWeight := kv.2.foldl
          (fun total batch => safeAdd total (safeSum (batch.entries.map (fun e => e.value)))) 0
        (kv.1.2, safeAdd (lookup0 weights kv.1.2) categoryWeight) :: weights
      else weights)
    []

/-- One step of the `categories.forEach` accumulation of the summary memo
(accumulator: breakdown so far, gross total, total weight): skip
categories with `weight <= 0`; otherwise push the breakdown line (with the
rounded subtotal) and accumulate the unrounded `subtotal` into
`grossTotal` and the weight into `totalWeight`. -/
def buildStep (weights prices : List (String × ℚ)) (acc : List CategoryLine × ℚ × ℚ)
    (category : SCategory) : List CategoryLine × ℚ × ℚ :=
  let weight := lookup0 weights category.id
  if 0 < weight then
    let unitPrice := lookup0 prices category.id
    let subtotal := safeMult weight unitPrice
    (acc.1 ++
        [{ categoryId := category.id, categoryName := category.name,
           categoryColor := category.color, totalWeight := weight,
           unitPrice := unitPrice, subtotal := roundToTwo subtotal }],
      safeAdd acc.2.1 subtotal,
      safeAdd acc.2.2 weight)
  else acc

/-- The `categories.forEach` accumulation of the summary memo. -/
def buildBreakdown (weights prices : List (String × ℚ)) (categories : List SCategory) :
    List CategoryLine × ℚ × ℚ :=
  categories.foldl (buildStep weights prices) ([], 0, 0)

/-- The `summary` memo of `useSettlement`:
`freightTotal = safeMult(totalWeight, freightRate)`,
`finalAmount = roundToTwo(safeAdd(safeSub(grossTotal, freightTotal), sackValue))`,
and the summary record (with `grossTotal` rounded to two decimals). -/
def settlementSummary (categories : List SCategory) (entityId : String)
    (batchesByKey : List ((String × String) × List Batch)) (sd : SettlementData) :
    SettlementSummary :=
  let weights := weightsByCategory entityId batchesByKey
  let r := buildBreakdown weights sd.prices categories
  let freightTotal := safeMult r.2.2 sd.freightRate
  let finalAmount := roundToTwo (safeAdd (safeSub r.2.1 freightTotal) sd.sackValue)
  { categoryBreakdown := r.1,
    grossTotal := roundToTwo r.2.1,
    totalWeight := r.2.2,
    freightTotal := freightTotal,
    sackValue := sd.sackValue,
    finalAmount := finalAmount }

/-! ### Invariant predicates -/

/-- The per-batch invariant of the spec data model:
at most `BATCH_SIZE` entries, `status = closed ⇔ entries.length = BATCH_SIZE`,
and `subtotal` present (and equal to the sum of entry values) exactly for
closed batches.  For open batches this forces `entries.length < BATCH_SIZE`
and an absent subtotal. -/
def batchOK (b : Batch) : Prop :=
  b.entries.length ≤ BATCH_SIZE ∧
  (b.status = .closed ↔ b.entries.length = BATCH_SIZE) ∧
  b.subtotal = (if b.status = .closed then some (calculateSubtotal b.entries) else none)

instance (b : Batch) : Decidable (batchOK b) := by unfold batchOK; infer_instance

/-- Invariant of a stored batch sequence: nonempty, all batches well-formed
and the last batch open. -/
def seqOK (bs : List Batch) : Prop :=
  bs ≠ [] ∧ (∀ b ∈ bs, batchOK b) ∧ ∀ lb, bs.getLast? = some lb → lb.status = .opened

/-- Ledger-state invariant: whenever the key is present, its sequence is
well-formed. -/
def ledgerOK (s : LedgerState) : Prop :=
  ∀ bs, s.batches = some bs → seqOK bs

/-- Number of closed batches in a sequence. -/
def closedCount (bs : List Batch) : Nat :=
  (bs.filter (fun b => b.status = .closed)).length

/-- All entry values stored in a sequence, in order. -/
def allValues (bs : List Batch) : List ℚ :=
  (bs.map (fun b => b.entries.map (fun e => e.value))).flatten

/-- A rational at the 4-decimal guard precision of the safe-arithmetic
layer: `q * 10000` is an integer. -/
def fourDec (q : ℚ) : Prop := (q * 10000).den = 1

instance (q : ℚ) : Decidable (fourDec q) := by unfold fourDec; infer_instance

/-! ### Concrete inputs and auxiliary definitions used by the claims -/

/-- The concrete reachable state refuting the "exactly one open batch"
part of C1: append six weights (closing one batch), then delete an entry
of the closed batch, which reopens it while the open tail batch remains. -/
def C1cexState : LedgerState :=
  (deleteWeight 1
    (addWeight 6 0
      (addWeight 5 0
        (addWeight 4 0
          (addWeight 3 0
            (addWeight 2 0
              (addWeight 1 0 initState).2).2).2).2).2).2).2

/-- Whether some batch of the active key currently stores an entry with the
given id (the computation behind the `found` flags of `deleteWeight` and
`updateWeight`). -/
def hasEntry (s : LedgerState) (entryId : Nat) : Bool :=
  match s.batches with
  | none => false
  | some bs => bs.any (fun b => b.entries.any (fun e => e.id = entryId))

/-- The effect of the `deleteWeight` scan on one batch when no batch is
dropped: re-derive the batch with the entry filtered out, or keep it
untouched. -/
def touchDelete (entryId : Nat) (b : Batch) : Batch :=
  if b.entries.any (fun e => e.id = entryId) then
    recalcBatch b (b.entries.filter (fun e => ¬ e.id = entryId))
  else b

/-- Concrete closed batch with five entries used to witness C6. -/
def C6batchClosed : Batch :=
  { id := 0,
    entries := [{ id := 1, value := 1, timestamp := 0 }, { id := 2, value := 2, timestamp := 0 },
                { id := 3, value := 3, timestamp := 0 }, { id := 4, value := 4, timestamp := 0 },
                { id := 5, value := 5, timestamp := 0 }],
    status := .closed, subtotal := some 15 }

/-- Concrete ledger state used to witness C6. -/
def C6state : LedgerState := { batches := some [C6batchClosed], nextId := 8 }

/-- A sequence of `addWeight` calls (all at timestamp 0), oldest first. -/
def appendList (vs : List ℚ) (s : LedgerState) : LedgerState :=
  vs.foldl (fun t v => (addWeight v 0 t).2) s

/-- Shape of a batch sequence produced by `n` successful appends: all
batches but the last are closed and full with correct subtotals, the last
is open with `n % 5` entries, and there are `n / 5 + 1` batches. -/
def appendInv (bs : List Batch) (n : Nat) : Prop :=
  bs.length = n / 5 + 1 ∧
  (∀ b ∈ bs.dropLast, b.status = .closed ∧ b.entries.length = BATCH_SIZE ∧
    b.subtotal = some (calculateSubtotal b.entries)) ∧
  (∀ lb, bs.getLast? = some lb → lb.status = .opened ∧ lb.subtotal = none ∧
    lb.entries.length = n % 5)

/-- State-level version of `appendInv` (`n = 0` before the first append). -/
def appendStateInv (s : LedgerState) (n : Nat) : Prop :=
  (n = 0 ∧ s.batches = none) ∨ (∃ bs, s.batches = some bs ∧ appendInv bs n)

/-- All entry values currently stored satisfy `P`. -/
def valuesOK (P : ℚ → Prop) (s : LedgerState) : Prop :=
  ∀ bs, s.batches = some bs → ∀ b ∈ bs, ∀ x ∈ b.entries, P x.value

/-- The state used for C10: six appends close one batch and start a tail,
then deleting entry 1 reopens the first batch while the tail stays open. -/
def C10state : LedgerState :=
  (deleteWeight 1
    (addWeight 6 0
      (addWeight 5 0
        (addWeight 4 0
          (addWeight 3 0
            (addWeight 2 0
              (addWeight 1 0 initState).2).2).2).2).2).2).2

/-- The reopened first batch of `C10state`. -/
def C10reopened : Batch :=
  { id := 0,
    entries := [{ id := 2, value := 2, timestamp := 0 }, { id := 3, value := 3, timestamp := 0 },
                { id := 4, value := 4, timestamp := 0 }, { id := 5, value := 5, timestamp := 0 }],
    status := .opened, subtotal := none }

/-- The open tail batch of `C10state`. -/
def C10tail : Batch :=
  { id := 6, entries := [{ id := 7, value := 6, timestamp := 0 }],
    status := .opened, subtotal := none }

/-- Shape of an included settlement line: positive aggregated weight, the
stored weight and unit price (defaulting to 0) of its category, and the
displayed subtotal `roundToTwo(safeMult(weight, unitPrice))`. -/
def lineOK (weights prices : List (String × ℚ)) (line : CategoryLine) : Prop :=
  0 < lookup0 weights line.categoryId ∧
  line.totalWeight = lookup0 weights line.categoryId ∧
  line.unitPrice = lookup0 prices line.categoryId ∧
  line.subtotal = roundToTwo (safeMult line.totalWeight line.unitPrice)

/-- The `safeAdd`-accumulation of the **unrounded** per-category products,
which is what the code's `grossTotal` accumulator computes. -/
def grossOf (bd : List CategoryLine) : ℚ :=
  bd.foldl (fun acc line => safeAdd acc (safeMult line.totalWeight line.unitPrice)) 0

/-- Modelled from the spec: "grossTotal is the safeAdd-accumulation of
those per-category subtotals" — accumulating the **rounded** per-line
`subtotal` fields, as the claim reads.  Used only to exhibit the
difference from the code's accumulator. -/
def grossTotal_spec (bd : List CategoryLine) : ℚ :=
  bd.foldl (fun acc line => safeAdd acc line.subtotal) 0

/-- Concrete settlement input witnessing C3: one category of weight 2 at
unit price 3. -/
def C3wCats : List SCategory := [{ id := "a", name := "A", color := "red" }]

/-- Concrete ledger snapshot for the C3 witness. -/
def C3wBk : List ((String × String) × List Batch) :=
  [(("E", "a"),
    [{ id := 0, entries := [{ id := 1, value := 2, timestamp := 0 }],
       status := .opened, subtotal := none }])]

/-- Concrete settlement data for the C3 witness. -/
def C3wSd : SettlementData := { prices := [("a", 3)], freightRate := 0, sackValue := 0 }

/-- Concrete settlement input refuting the original C3 reading: two
categories, each of aggregated weight 0.5 at unit price 2.01. -/
def C3cCats : List SCategory :=
  [{ id := "a", name := "A", color := "red" }, { id := "b", name := "B", color := "blue" }]

/-- Ledger snapshot for the C3 counterexample. -/
def C3cBk : List ((String × String) × List Batch) :=
  [(("E", "a"),
    [{ id := 0, entries := [{ id := 1, value := 1/2, timestamp := 0 }],
       status := .opened, subtotal := none }]),
   (("E", "b"),
    [{ id := 2, entries := [{ id := 3, value := 1/2, timestamp := 0 }],
       status := .opened, subtotal := none }])]

/-- Settlement data for the C3 counterexample. -/
def C3cSd : SettlementData :=
  { prices := [("a", 201/100), ("b", 201/100)], freightRate := 0, sackValue := 0 }

/-- Categories for the C4 scenario. -/
def C4cats : List SCategory :=
  [{ id := "a", name := "A", color := "red" }, { id := "b", name := "B", color := "blue" }]

/-- Ledger snapshot for the C4 scenario: category A aggregates to weight
100, category B to weight 50. -/
def C4bk : List ((String × String) × List Batch) :=
  [(("E", "a"),
    [{ id := 0, entries := [{ id := 1, value := 100, timestamp := 0 }],
       status := .opened, subtotal := none }]),
   (("E", "b"),
    [{ id := 2, entries := [{ id := 3, value := 50, timestamp := 0 }],
       status := .opened, subtotal := none }])]

/-- Settlement data for the C4 scenario: prices 2.00 and 3.00, freight
rate 0.50, sack value 20. -/
def C4sd : SettlementData :=
  { prices := [("a", 2), ("b", 3)], freightRate := 1/2, sackValue := 20 }

/-! ### Safe-arithmetic lemmas -/

theorem jsRound_intCast (m : ℤ) : jsRound (m : ℚ) = m := by
  unfold jsRound
  rw [Int.floor_int_add]
  norm_num

theorem fourDec_exists {q : ℚ} (h : fourDec q) : ∃ m : ℤ, q * 10000 = (m : ℚ) := by
  exact ⟨(q * 10000).num, ((Rat.den_eq_one_iff _).mp h).symm⟩

theorem fourDec_zero : fourDec 0 := by unfold fourDec; norm_num

theorem fourDec_add {a b : ℚ} (ha : fourDec a) (hb : fourDec b) : fourDec (a + b) := by
  obtain ⟨m, hm⟩ := fourDec_exists ha
  obtain ⟨n, hn⟩ := fourDec_exists hb
  unfold fourDec
  have : (a + b) * 10000 = ((m + n : ℤ) : ℚ) := by push_cast; rw [add_mul, hm, hn]
  rw [this, Rat.den_intCast]

theorem toInt_fourDec {a : ℚ} (ha : fourDec a) : (toInt a : ℚ) = a * 10000 := by
  obtain ⟨m, hm⟩ := fourDec_exists ha
  unfold toInt PRECISION_FACTOR
  rw [hm, jsRound_intCast]

/-- On rationals at the guard precision, `safeAdd` is exact addition. -/
theorem safeAdd_eq_add {a b : ℚ} (ha : fourDec a) (hb : fourDec b) : safeAdd a b = a + b := by
  unfold safeAdd fromInt
  push_cast
  rw [toInt_fourDec ha, toInt_fourDec hb]
  unfold PRECISION_FACTOR
  field_simp
  ring

theorem foldl_safeAdd_eq_sum {l : List ℚ} (hl : ∀ v ∈ l, fourDec v) :
    ∀ a : ℚ, fourDec a → l.foldl (fun acc val => safeAdd acc val) a = a + l.sum := by
  induction l with
  | nil => intro a _; simp
  | cons x xs ih =>
    intro a ha
    have hx : fourDec x := hl x (by simp)
    have hxs : ∀ v ∈ xs, fourDec v := fun v hv => hl v (by simp [hv])
    simp only [List.foldl_cons, List.sum_cons]
    rw [safeAdd_eq_add ha hx, ih hxs (a + x) (fourDec_add ha hx)]
    ring

/-- On lists of rationals at the guard precision, `safeSum` is the plain sum. -/
theorem safeSum_eq_sum {l : List ℚ} (hl : ∀ v ∈ l, fourDec v) : safeSum l = l.sum := by
  unfold safeSum
  rw [foldl_safeAdd_eq_sum hl 0 fourDec_zero, zero_add]

/-! ### Fold lemmas for the ledger aggregates -/

theorem foldl_add_value (es : List WeightEntry) :
    ∀ a : ℚ, es.foldl (fun sum entry => sum + entry.value) a
      = a + (es.map (fun e => e.value)).sum := by
  induction es with
  | nil => intro a; simp
  | cons e es ih => intro a; simp only [List.foldl_cons, List.map_cons, List.sum_cons]; rw [ih]; ring

/-- `calculateSubtotal` is the sum of the entry values. -/
theorem calculateSubtotal_eq (es : List WeightEntry) :
    calculateSubtotal es = (es.map (fun e => e.value)).sum := by
  unfold calculateSubtotal
  rw [foldl_add_value, zero_add]

theorem foldl_add_batchSum (bs : List Batch) :
    ∀ a : ℚ, bs.foldl
        (fun total batch => total + batch.entries.foldl (fun sum entry => sum + entry.value) 0) a
      = a + (bs.map (fun b => (b.entries.map (fun e => e.value)).sum)).sum := by
  induction bs with
  | nil => intro a; simp
  | cons b bs ih =>
    intro a
    simp only [List.foldl_cons, List.map_cons, List.sum_cons]
    rw [foldl_add_value, zero_add, ih]
    ring

/-- `getTotalWeight` is the plain sum of all entry values of the active
batches. -/
theorem getTotalWeight_eq_sum (s : LedgerState) :
    getTotalWeight s = (allValues (activeBatches s)).sum := by
  unfold getTotalWeight allValues
  rw [List.sum_flatten, foldl_add_batchSum, zero_add, List.map_map]
  rfl

/-! ### Ledger invariant preservation -/

theorem batchOK_createNewBatch (id : Nat) : batchOK (createNewBatch id) := by
  unfold batchOK createNewBatch BATCH_SIZE
  simp

theorem batchOK_recalcBatch (b : Batch) {es : List WeightEntry} (h : es.length ≤ BATCH_SIZE) :
    batchOK (recalcBatch b es) := by
  unfold batchOK recalcBatch BATCH_SIZE at *
  by_cases hc : 5 ≤ es.length
  · simp only [hc, if_true]
    simp
    omega
  · simp only [hc, if_false]
    simp
    omega

theorem seqOK_getLast {bs : List Batch} (hseq : seqOK bs) :
    ∃ lb, bs.getLast? = some lb ∧ lb.status = .opened ∧ bs.dropLast ++ [lb] = bs := by
  obtain ⟨hne, _, hlast⟩ := hseq
  cases h : bs.getLast? with
  | none => exact absurd (List.getLast?_eq_none_iff.mp h) hne
  | some lb =>
    exact ⟨lb, rfl, hlast lb h, List.dropLast_append_getLast? lb h⟩

theorem ledgerOK_addWeightCore {bs : List Batch} (hseq : seqOK bs) (v : ℚ) (now nid : Nat) :
    ledgerOK (addWeightCore v now bs nid) := by
  obtain ⟨lb, hlb, hopen, hdecomp⟩ := seqOK_getLast hseq
  obtain ⟨hne, hok, hlast⟩ := hseq
  have hlbOK : batchOK lb := hok lb (by rw [← hdecomp]; exact List.mem_append_right _ (by simp))
  obtain ⟨hle, hiff, _⟩ := hlbOK
  have hlt : lb.entries.length < BATCH_SIZE := by
    rcases Nat.lt_or_ge lb.entries.length BATCH_SIZE with h | h
    · exact h
    · have h5 : lb.entries.length = BATCH_SIZE := le_antisymm hle h
      have := hiff.mpr h5
      rw [hopen] at this
      exact absurd this (by simp)
  have hnc : ¬ lb.status = .closed := by rw [hopen]; simp
  intro bs2 hbs2
  unfold addWeightCore at hbs2
  rw [hlb] at hbs2
  simp only [hnc, if_false] at hbs2
  by_cases hc :
      BATCH_SIZE ≤ (lb.entries ++ [({ id := nid, value := v, timestamp := now } : WeightEntry)]).length
  · rw [if_pos hc] at hbs2
    simp only [Option.some.injEq] at hbs2
    subst hbs2
    refine ⟨by simp, ?_, ?_⟩
    · intro b hb
      rcases List.mem_append.mp hb with hb | hb
      · rcases List.mem_append.mp hb with hb | hb
        · exact hok b (List.dropLast_subset bs hb)
        · rw [List.mem_singleton.mp hb]
          exact batchOK_recalcBatch lb (by simp; omega)
      · rw [List.mem_singleton.mp hb]
        exact batchOK_createNewBatch _
    · intro b hb
      rw [List.getLast?_concat] at hb
      simp only [Option.some.injEq] at hb
      rw [← hb]
      rfl
  · rw [if_neg hc] at hbs2
    simp only [Option.some.injEq] at hbs2
    subst hbs2
    refine ⟨by simp, ?_, ?_⟩
    · intro b hb
      rcases List.mem_append.mp hb with hb | hb
      · exact hok b (List.dropLast_subset bs hb)
      · rw [List.mem_singleton.mp hb]
        exact batchOK_recalcBatch lb (by simp at hc ⊢; omega)
    · intro b hb
      rw [List.getLast?_concat] at hb
      simp only [Option.some.injEq] at hb
      rw [← hb]
      unfold recalcBatch
      simp only [hc, if_false]

theorem seqOK_singleton_new (id : Nat) : seqOK [createNewBatch id] :=
  ⟨by simp, fun b hb => by rw [List.mem_singleton.mp hb]; exact batchOK_createNewBatch id,
    fun lb hlb => by simp at hlb; rw [← hlb]; rfl⟩

/-- `addWeight` preserves the ledger invariant. -/
theorem ledgerOK_addWeight {s : LedgerState} (h : ledgerOK s) (v : ℚ) (now : Nat) :
    ledgerOK (addWeight v now s).2 := by
  unfold addWeight
  by_cases hv : v ≤ 0
  · rw [if_pos hv]; exact h
  · rw [if_neg hv]
    cases hb : s.batches with
    | none => exact ledgerOK_addWeightCore (seqOK_singleton_new s.nextId) v now (s.nextId + 1)
    | some bs => exact ledgerOK_addWeightCore (h bs hb) v now s.nextId

/-- Every batch produced by the `deleteWeight` scan is well-formed. -/
theorem deleteScan_batchOK (entryId total : Nat) :
    ∀ (l : List Batch) (i : Nat) (acc : List Batch) (found : Bool) (nid : Nat),
      (∀ b ∈ l, batchOK b) → (∀ b ∈ acc, batchOK b) →
      ∀ b ∈ (deleteScan entryId total l i acc found nid).1, batchOK b := by
  intro l
  induction l with
  | nil =>
    intro i acc found nid _ hacc b hb
    simp only [deleteScan] at hb
    exact hacc b hb
  | cons batch rest ih =>
    intro i acc found nid hl hacc b hb
    have hbatch : batchOK batch := hl batch (by simp)
    have hrest : ∀ b ∈ rest, batchOK b := fun b hb => hl b (by simp [hb])
    simp only [deleteScan] at hb
    split at hb
    · split at hb
      · split at hb
        · refine ih (i + 1) _ true _ hrest ?_ b hb
          intro b2 hb2
          rcases List.mem_append.mp hb2 with h2 | h2
          · exact hacc b2 h2
          · rw [List.mem_singleton.mp h2]; exact batchOK_createNewBatch _
        · exact ih (i + 1) acc true nid hrest hacc b hb
      · refine ih (i + 1) _ true nid hrest ?_ b hb
        intro b2 hb2
        rcases List.mem_append.mp hb2 with h2 | h2
        · exact hacc b2 h2
        · rw [List.mem_singleton.mp h2]
          exact batchOK_recalcBatch batch
            (le_trans (List.length_filter_le _ _) hbatch.1)
    · refine ih (i + 1) _ found nid hrest ?_ b hb
      intro b2 hb2
      rcases List.mem_append.mp hb2 with h2 | h2
      · exact hacc b2 h2
      · rw [List.mem_singleton.mp h2]; exact hbatch

/-- The `found` flag of the scan: the input flag or-ed with "some batch
contains the entry". -/
theorem deleteScan_found (entryId total : Nat) :
    ∀ (l : List Batch) (i : Nat) (acc : List Batch) (found : Bool) (nid : Nat),
      (deleteScan entryId total l i acc found nid).2.1
        = (found || l.any (fun b => b.entries.any (fun e => e.id = entryId))) := by
  intro l
  induction l with
  | nil => intro i acc found nid; simp [deleteScan]
  | cons batch rest ih =>
    intro i acc found nid
    simp only [deleteScan]
    split
    · rename_i hcont
      split
      · split
        · simp [ih, hcont]
        · simp [ih, hcont]
      · simp [ih, hcont]
    · rename_i hcont
      simp only [List.any_cons]
      rw [ih]
      cases found <;> simp [hcont]

theorem ensureNonEmpty_ne (bs : List Batch) (nid : Nat) : (ensureNonEmpty bs nid).1 ≠ [] := by
  unfold ensureNonEmpty
  split <;> simp_all [List.length_eq_zero]

theorem ensureNonEmpty_ok {bs : List Batch} (h : ∀ b ∈ bs, batchOK b) (nid : Nat) :
    ∀ b ∈ (ensureNonEmpty bs nid).1, batchOK b := by
  unfold ensureNonEmpty
  split
  · intro b hb
    rcases List.mem_append.mp hb with h2 | h2
    · exact h b h2
    · rw [List.mem_singleton.mp h2]; exact batchOK_createNewBatch _
  · exact h

theorem ensureLastOpen_ne {bs : List Batch} (h : bs ≠ []) (nid : Nat) :
    (ensureLastOpen bs nid).1 ≠ [] := by
  unfold ensureLastOpen
  split
  · split <;> simp [h]
  · exact h

theorem ensureLastOpen_ok {bs : List Batch} (h : ∀ b ∈ bs, batchOK b) (nid : Nat) :
    ∀ b ∈ (ensureLastOpen bs nid).1, batchOK b := by
  unfold ensureLastOpen
  split
  · split
    · intro b hb
      rcases List.mem_append.mp hb with h2 | h2
      · exact h b h2
      · rw [List.mem_singleton.mp h2]; exact batchOK_createNewBatch _
    · exact h
  · exact h

theorem ensureLastOpen_last (bs : List Batch) (nid : Nat) :
    ∀ lb, (ensureLastOpen bs nid).1.getLast? = some lb → lb.status = .opened := by
  unfold ensureLastOpen
  split
  · rename_i lastBatch hlb
    split
    · intro lb h
      rw [List.getLast?_concat] at h
      simp only [Option.some.injEq] at h
      rw [← h]; rfl
    · rename_i hnc
      intro lb h
      rw [hlb] at h
      simp only [Option.some.injEq] at h
      rw [← h]
      cases hst : lastBatch.status with
      | opened => rfl
      | closed => exact absurd hst hnc
  · rename_i hnone
    intro lb h
    rw [hnone] at h
    cases h

/-- `deleteWeight` preserves the ledger invariant. -/
theorem ledgerOK_deleteWeight {s : LedgerState} (h : ledgerOK s) (entryId : Nat) :
    ledgerOK (deleteWeight entryId s).2 := by
  unfold deleteWeight
  cases hb : s.batches with
  | none => exact fun bs2 h2 => h bs2 ((by rfl : (false, s).2 = s) ▸ h2)
  | some bs =>
    obtain ⟨hne, hok, hlast⟩ := h bs hb
    intro bs2 hbs2
    simp only [Option.some.injEq] at hbs2
    subst hbs2
    refine ⟨?_, ?_, ?_⟩
    · exact ensureLastOpen_ne (ensureNonEmpty_ne _ _) _
    · exact ensureLastOpen_ok
        (ensureNonEmpty_ok (deleteScan_batchOK entryId bs.length bs 0 [] false s.nextId hok
          (by simp)) _) _
    · exact ensureLastOpen_last _ _

/-- `updateWeight` preserves the ledger invariant. -/
theorem ledgerOK_updateWeight {s : LedgerState} (h : ledgerOK s) (entryId : Nat) (v : ℚ) :
    ledgerOK (updateWeight entryId v s).2 := by
  unfold updateWeight
  by_cases hv : v ≤ 0
  · rw [if_pos hv]; exact h
  · rw [if_neg hv]
    cases hb : s.batches with
    | none => exact fun bs2 h2 => h bs2 ((by rfl : (false, s).2 = s) ▸ h2)
    | some bs =>
      obtain ⟨hne, hok, hlast⟩ := h bs hb
      intro bs2 hbs2
      simp only [Option.some.injEq] at hbs2
      subst hbs2
      refine ⟨by simpa using hne, ?_, ?_⟩
      · intro b2 hb2
        obtain ⟨b, hbmem, hbeq⟩ := List.mem_map.mp hb2
        subst hbeq
        obtain ⟨hle, hiff, hsub⟩ := hok b hbmem
        split
        · exact ⟨by simpa using hle, by simpa using hiff, rfl⟩
        · exact hok b hbmem
      · intro lb hlb
        rw [List.getLast?_map] at hlb
        obtain ⟨lb0, hlb0, hfeq⟩ := Option.map_eq_some'.mp hlb
        have hopen := hlast lb0 hlb0
        rw [← hfeq]
        split <;> exact hopen

/-- Every reachable ledger state satisfies the sequence invariant. -/
theorem ledgerOK_reachable {s : LedgerState} (h : Reachable s) : ledgerOK s := by
  induction h with
  | init => intro bs hbs; simp [initState] at hbs
  | step hr hstep ih =>
    cases hstep with
    | add v now s => exact ledgerOK_addWeight ih v now
    | del entryId s => exact ledgerOK_deleteWeight ih entryId
    | upd entryId v s => exact ledgerOK_updateWeight ih entryId v

/-! ### Claim C1 -/

/-- C1 (amended).  For every reachable ledger state and stored batch
sequence of the active key: the sequence is nonempty, its **last** batch is
open (so at least one batch is open — but, unlike the original claim,
*more than one* batch can be open after a delete reopens an earlier
batch), and every batch satisfies `status = closed ⇔ entries.length =
BATCH_SIZE ⇔ subtotal present and equal to the sum of its entry values`,
with open batches having `entries.length < BATCH_SIZE` and no subtotal.
The invariant is preserved by `addWeight`, `deleteWeight` and
`updateWeight` since reachability is closed under them. -/
theorem C1_batch_invariant (s : LedgerState) (h : Reachable s) :
    ∀ bs, s.batches = some bs →
      bs ≠ [] ∧
      (∀ lb, bs.getLast? = some lb → lb.status = .opened) ∧
      (∀ b ∈ bs,
        (b.status = .closed ↔ b.entries.length = BATCH_SIZE) ∧
        (b.status = .closed ↔ b.subtotal = some (calculateSubtotal b.entries)) ∧
        (b.status = .opened → b.subtotal = none ∧ b.entries.length < BATCH_SIZE)) := by
  intro bs hbs
  obtain ⟨hne, hok, hlast⟩ := ledgerOK_reachable h bs hbs
  refine ⟨hne, hlast, ?_⟩
  intro b hb
  obtain ⟨hle, hiff, hsub⟩ := hok b hb
  refine ⟨hiff, ?_, ?_⟩
  · constructor
    · intro hc; rw [hsub, if_pos hc]
    · intro hs
      cases hst : b.status with
      | closed => rfl
      | opened => rw [hsub, if_neg (by simp [hst])] at hs; cases hs
  · intro hopen
    have hnc : ¬ b.status = .closed := by simp [hopen]
    constructor
    · rw [hsub, if_neg hnc]
    · have : ¬ b.entries.length = BATCH_SIZE := fun hl => hnc (hiff.mpr hl)
      omega

/-- Witness for C1: the invariant, fully instantiated at the concrete
reachable state obtained by a single `addWeight 2`. -/
theorem C1_batch_invariant_witness :
    (addWeight 2 0 initState).2.batches =
      some [{ id := 0, entries := [{ id := 1, value := 2, timestamp := 0 }],
              status := BatchStatus.opened, subtotal := none }] ∧
    (none : Option ℚ) = none ∧ (1 : Nat) < BATCH_SIZE := by
  have hreach : Reachable (addWeight 2 0 initState).2 :=
    Reachable.step Reachable.init (Step.add 2 0 initState)
  have hb : (addWeight 2 0 initState).2.batches =
      some [{ id := 0, entries := [{ id := 1, value := 2, timestamp := 0 }],
              status := BatchStatus.opened, subtotal := none }] := by
    norm_num +decide [addWeight, addWeightCore, createNewBatch, recalcBatch, BATCH_SIZE,
      initState]
  have h := C1_batch_invariant _ hreach _ hb
  have hbatch := (h.2.2
    { id := 0, entries := [{ id := 1, value := 2, timestamp := 0 }],
      status := BatchStatus.opened, subtotal := none } (by simp)).2.2 rfl
  exact ⟨hb, hbatch.1, by simpa using hbatch.2⟩

/-- Counterexample for C1 as stated: in the reachable state `C1cexState`
two batches are simultaneously open (the reopened first batch and the tail
batch), refuting "exactly one batch in that key's ordered sequence has
status open". -/
theorem C1_counterexample :
    Reachable C1cexState ∧
    ((C1cexState.batches.getD []).filter (fun b => b.status = .opened)).length = 2 := by
  constructor
  · exact Reachable.step
      (Reachable.step
        (Reachable.step
          (Reachable.step
            (Reachable.step
              (Reachable.step
                (Reachable.step Reachable.init (Step.add 1 0 _))
                (Step.add 2 0 _))
              (Step.add 3 0 _))
            (Step.add 4 0 _))
          (Step.add 5 0 _))
        (Step.add 6 0 _))
      (Step.del 1 _)
  · norm_num +decide [C1cexState, addWeight, addWeightCore, deleteWeight, deleteScan,
      ensureNonEmpty, ensureLastOpen, createNewBatch, recalcBatch, calculateSubtotal,
      BATCH_SIZE, initState]

/-! ### Unfolding equations for the operations at resolved states -/

theorem addWeight_eq_none {v : ℚ} (hv : ¬ v ≤ 0) {s : LedgerState} (hb : s.batches = none)
    (now : Nat) :
    addWeight v now s = (true, addWeightCore v now [createNewBatch s.nextId] (s.nextId + 1)) := by
  unfold addWeight
  rw [if_neg hv, hb]

theorem addWeight_eq_some {v : ℚ} (hv : ¬ v ≤ 0) {s : LedgerState} {bs : List Batch}
    (hb : s.batches = some bs) (now : Nat) :
    addWeight v now s = (true, addWeightCore v now bs s.nextId) := by
  unfold addWeight
  rw [if_neg hv, hb]

theorem updateWeight_eq_some {v : ℚ} {entryId : Nat} (hv : ¬ v ≤ 0) {s : LedgerState}
    {bs : List Batch} (hb : s.batches = some bs) :
    updateWeight entryId v s =
      (bs.any (fun b => b.entries.any (fun e => e.id = entryId)),
       { batches := some (bs.map (fun batch =>
           if batch.entries.any (fun e => e.id = entryId) then
             let updatedEntries := batch.entries.map (fun e =>
               if e.id = entryId then { e with value := v } else e)
             { batch with
               entries := updatedEntries,
               subtotal :=
                 if batch.status = .closed then some (calculateSubtotal updatedEntries)
                 else none }
           else batch)),
         nextId := s.nextId }) := by
  unfold updateWeight
  rw [if_neg hv, hb]

theorem deleteWeight_found_eq {entryId : Nat} {s : LedgerState} {bs : List Batch}
    (hb : s.batches = some bs) :
    (deleteWeight entryId s).1 = (deleteScan entryId bs.length bs 0 [] false s.nextId).2.1 := by
  unfold deleteWeight
  rw [hb]

theorem deleteWeight_batches_eq {entryId : Nat} {s : LedgerState} {bs : List Batch}
    (hb : s.batches = some bs) :
    (deleteWeight entryId s).2.batches =
      some (ensureLastOpen
        (ensureNonEmpty (deleteScan entryId bs.length bs 0 [] false s.nextId).1
          (deleteScan entryId bs.length bs 0 [] false s.nextId).2.2).1
        (ensureNonEmpty (deleteScan entryId bs.length bs 0 [] false s.nextId).1
          (deleteScan entryId bs.length bs 0 [] false s.nextId).2.2).2).1 := by
  unfold deleteWeight
  rw [hb]

/-! ### Claim C8 -/

theorem updateWeight_map_id {bs : List Batch} {entryId : Nat}
    (h : ∀ b ∈ bs, b.entries.any (fun e => e.id = entryId) = false) (v : ℚ) :
    (bs.map (fun batch =>
      if batch.entries.any (fun e => e.id = entryId) then
        let updatedEntries := batch.entries.map (fun e =>
          if e.id = entryId then { e with value := v } else e)
        { batch with
          entries := updatedEntries,
          subtotal :=
            if batch.status = .closed then some (calculateSubtotal updatedEntries) else none }
      else batch)) = bs := by
  induction bs with
  | nil => rfl
  | cons b rest ih =>
    simp only [List.map_cons]
    rw [if_neg (by simp [h b (by simp)]), ih fun b2 hb2 => h b2 (by simp [hb2])]

/-- C8.  Non-positive values are refused by append and update with no state
change; update on an unknown entry id returns false with no state change;
delete on an unknown entry id returns false.  (All operations are total
functions of the state — nothing is thrown.) -/
theorem C8_error_handling (s : LedgerState) (v : ℚ) (now entryId : Nat) :
    (v ≤ 0 → addWeight v now s = (false, s)) ∧
    (v ≤ 0 → updateWeight entryId v s = (false, s)) ∧
    (hasEntry s entryId = false → updateWeight entryId v s = (false, s)) ∧
    (hasEntry s entryId = false → (deleteWeight entryId s).1 = false) := by
  refine ⟨?_, ?_, ?_, ?_⟩
  · intro hv
    unfold addWeight
    rw [if_pos hv]
  · intro hv
    unfold updateWeight
    rw [if_pos hv]
  · intro hfound
    by_cases hv : v ≤ 0
    · unfold updateWeight
      rw [if_pos hv]
    · cases hb : s.batches with
      | none =>
        unfold updateWeight
        rw [if_neg hv, hb]
      | some bs =>
        unfold hasEntry at hfound
        rw [hb] at hfound
        have hany : (bs.any (fun b => b.entries.any (fun e => e.id = entryId))) = false := hfound
        have hnotin : ∀ b ∈ bs, (b.entries.any (fun e => e.id = entryId)) = false := by
          intro b hbmem
          simpa using List.any_eq_false.mp hany b hbmem
        rw [updateWeight_eq_some hv hb, updateWeight_map_id hnotin v, hany]
        obtain ⟨sb, sn⟩ := s
        simp only [Option.some.injEq] at hb ⊢
        simp [hb]
  · intro hfound
    cases hb : s.batches with
    | none =>
      unfold deleteWeight
      rw [hb]
    | some bs =>
      unfold hasEntry at hfound
      rw [hb] at hfound
      rw [deleteWeight_found_eq hb, deleteScan_found]
      simpa using hfound

/-- Witness for C8 at concrete inputs: value `-1`, unknown entry id `99`,
starting from the initial state. -/
theorem C8_error_handling_witness :
    ((-1 : ℚ) ≤ 0) ∧
    addWeight (-1) 0 initState = (false, initState) ∧
    updateWeight 99 (-1) initState = (false, initState) ∧
    hasEntry initState 99 = false ∧
    updateWeight 99 5 initState = (false, initState) ∧
    (deleteWeight 99 initState).1 = false := by
  refine ⟨by norm_num, ?_, ?_, rfl, ?_, ?_⟩
  · exact (C8_error_handling initState (-1) 0 99).1 (by norm_num)
  · exact (C8_error_handling initState (-1) 0 99).2.1 (by norm_num)
  · exact (C8_error_handling initState 5 0 99).2.2.1 rfl
  · exact (C8_error_handling initState 5 0 99).2.2.2 rfl

/-! ### Claim C7 -/

/-- C7.  If the active key holds a single batch with a single entry,
deleting that entry leaves exactly one fresh open empty batch; and more
generally no delete ever leaves the stored batch sequence empty. -/
theorem C7_delete_sole_entry (s : LedgerState) (b : Batch) (e : WeightEntry)
    (hb : s.batches = some [b]) (he : b.entries = [e]) :
    ((deleteWeight e.id s).2.batches = some [createNewBatch s.nextId] ∧
      (createNewBatch s.nextId).status = .opened ∧
      (createNewBatch s.nextId).entries = []) ∧
    (∀ (t : LedgerState) (entryId : Nat) (bs bs2 : List Batch), t.batches = some bs →
      (deleteWeight entryId t).2.batches = some bs2 → bs2 ≠ []) := by
  constructor
  · have hscan : deleteScan e.id 1 [b] 0 [] false s.nextId =
        ([createNewBatch s.nextId], true, s.nextId + 1) := by
      simp [deleteScan, he]
    rw [deleteWeight_batches_eq hb]
    simp only [List.length_singleton, hscan]
    refine ⟨?_, rfl, rfl⟩
    simp [ensureNonEmpty, ensureLastOpen, createNewBatch]
  · intro t entryId bs bs2 hbs hbs2
    rw [deleteWeight_batches_eq hbs] at hbs2
    simp only [Option.some.injEq] at hbs2
    subst hbs2
    exact ensureLastOpen_ne (ensureNonEmpty_ne _ _) _

/-- Witness for C7 at the concrete state reached by appending the single
weight 3. -/
theorem C7_delete_sole_entry_witness :
    (deleteWeight 1 (addWeight 3 0 initState).2).2.batches =
      some [{ id := 2, entries := [], status := BatchStatus.opened, subtotal := none }] := by
  have hs : (addWeight 3 0 initState).2 =
      { batches := some [{ id := 0, entries := [{ id := 1, value := 3, timestamp := 0 }],
                           status := BatchStatus.opened, subtotal := none }],
        nextId := 2 } := by
    norm_num +decide [addWeight, addWeightCore, createNewBatch, recalcBatch, BATCH_SIZE,
      initState]
  rw [hs]
  exact (C7_delete_sole_entry
    { batches := some [{ id := 0, entries := [{ id := 1, value := 3, timestamp := 0 }],
                         status := BatchStatus.opened, subtotal := none }], nextId := 2 }
    { id := 0, entries := [{ id := 1, value := 3, timestamp := 0 }],
      status := BatchStatus.opened, subtotal := none }
    { id := 1, value := 3, timestamp := 0 } rfl rfl).1.1

/-! ### Claim C6 -/

/-- When no batch loses its last entry, the scan is a plain map and the id
counter is untouched. -/
theorem deleteScan_no_drop (entryId total : Nat) :
    ∀ (l : List Batch) (i : Nat) (acc : List Batch) (found : Bool) (nid : Nat),
      (∀ b ∈ l, b.entries.any (fun e => e.id = entryId) = true →
        (b.entries.filter (fun e => ¬ e.id = entryId)).length ≠ 0) →
      (deleteScan entryId total l i acc found nid).1 = acc ++ l.map (touchDelete entryId) ∧
      (deleteScan entryId total l i acc found nid).2.2 = nid := by
  intro l
  induction l with
  | nil => intro i acc found nid _; simp [deleteScan]
  | cons batch rest ih =>
    intro i acc found nid h
    have hrest : ∀ b ∈ rest, b.entries.any (fun e => e.id = entryId) = true →
        (b.entries.filter (fun e => ¬ e.id = entryId)).length ≠ 0 :=
      fun b hb => h b (by simp [hb])
    simp only [deleteScan]
    by_cases hc : (batch.entries.any (fun e => e.id = entryId)) = true
    · rw [if_pos hc, if_neg (h batch (by simp) hc)]
      obtain ⟨h1, h2⟩ := ih (i + 1) (acc ++ [recalcBatch batch
        (batch.entries.filter (fun e => ¬ e.id = entryId))]) true nid hrest
      refine ⟨?_, h2⟩
      rw [h1]
      simp [touchDelete, hc]
    · rw [if_neg hc]
      obtain ⟨h1, h2⟩ := ih (i + 1) (acc ++ [batch]) found nid hrest
      refine ⟨?_, h2⟩
      rw [h1]
      simp [touchDelete, hc]

theorem ensureNonEmpty_of_ne {bs : List Batch} (h : bs ≠ []) (nid : Nat) :
    ensureNonEmpty bs nid = (bs, nid) := by
  unfold ensureNonEmpty
  rw [if_neg (by simpa [List.length_eq_zero] using h)]

theorem ensureLastOpen_getElem? (bs : List Batch) (nid i : Nat) (h : i < bs.length) :
    (ensureLastOpen bs nid).1[i]? = bs[i]? := by
  unfold ensureLastOpen
  split
  · split
    · exact List.getElem?_append_left h
    · rfl
  · rfl

/-- Removing one entry (by an id unique within the batch) from a list of
entries with `Nodup` ids shortens it by exactly one. -/
theorem length_filter_ne_of_nodup :
    ∀ {es : List WeightEntry} {a : Nat},
      (es.map (fun x => x.id)).Nodup → ∀ {e : WeightEntry}, e ∈ es → e.id = a →
      (es.filter (fun x => ¬ x.id = a)).length = es.length - 1 := by
  intro es
  induction es with
  | nil => intro a _ e he; cases he
  | cons x xs ih =>
    intro a hnd e he ha
    simp only [List.map_cons, List.nodup_cons] at hnd
    obtain ⟨hx, hxs⟩ := hnd
    rcases List.mem_cons.mp he with rfl | hmem
    · have hfx : xs.filter (fun y => ¬ y.id = a) = xs := by
        rw [List.filter_eq_self]
        intro y hy
        simp only [decide_eq_true_eq]
        intro hya
        apply hx
        have hmem2 : y.id ∈ xs.map (fun z => z.id) := List.mem_map_of_mem (fun z => z.id) hy
        rwa [hya, ← ha] at hmem2
      simp only [List.filter_cons]
      rw [if_neg (by simp [ha]), hfx]
      simp
    · have hxa : ¬ x.id = a := by
        intro hxa
        apply hx
        have hmem2 : e.id ∈ xs.map (fun z => z.id) := List.mem_map_of_mem (fun z => z.id) hmem
        rwa [ha, ← hxa] at hmem2
      have hlen := ih hxs hmem ha
      have hpos : 1 ≤ xs.length := List.length_pos.mpr (List.ne_nil_of_mem hmem)
      simp only [List.filter_cons]
      rw [if_pos (by simpa using hxa)]
      simp only [List.length_cons, hlen]
      omega

/-- C6.  Deleting an entry of a closed, full batch (entry ids unique in the
batch, and the id not present in any other batch) reopens that batch in
place: its status flips to open, its subtotal becomes absent, and after the
fix-ups the last batch of the sequence is open. -/
theorem C6_delete_reopens (s : LedgerState) (bs : List Batch) (i : Nat) (b : Batch)
    (e : WeightEntry) (hb : s.batches = some bs) (hib : bs[i]? = some b)
    (_hst : b.status = .closed) (hlen : b.entries.length = BATCH_SIZE)
    (he : e ∈ b.entries) (hnd : (b.entries.map (fun x => x.id)).Nodup)
    (huniq : ∀ b2 ∈ bs, (b2.entries.any (fun x => x.id = e.id)) = true → b2 = b) :
    ∃ bs2, (deleteWeight e.id s).2.batches = some bs2 ∧
      bs2[i]? = some (recalcBatch b (b.entries.filter (fun x => ¬ x.id = e.id))) ∧
      (recalcBatch b (b.entries.filter (fun x => ¬ x.id = e.id))).status = .opened ∧
      (recalcBatch b (b.entries.filter (fun x => ¬ x.id = e.id))).subtotal = none ∧
      (∀ lb, bs2.getLast? = some lb → lb.status = .opened) := by
  have hflen : (b.entries.filter (fun x => ¬ x.id = e.id)).length = BATCH_SIZE - 1 := by
    rw [length_filter_ne_of_nodup hnd he rfl, hlen]
  have hnodrop : ∀ b2 ∈ bs, b2.entries.any (fun x => x.id = e.id) = true →
      (b2.entries.filter (fun x => ¬ x.id = e.id)).length ≠ 0 := by
    intro b2 hb2 hc
    rw [huniq b2 hb2 hc, hflen]
    unfold BATCH_SIZE
    omega
  obtain ⟨hscan, _⟩ :=
    deleteScan_no_drop e.id bs.length bs 0 [] false s.nextId hnodrop
  have hilt : i < bs.length := by
    rw [List.getElem?_eq_some] at hib
    exact hib.1
  have hmaplen : (bs.map (touchDelete e.id)).length = bs.length := by simp
  have hne : bs.map (touchDelete e.id) ≠ [] := by
    intro hcon
    rw [hcon] at hmaplen
    simp at hmaplen
    omega
  have hrecalc : touchDelete e.id b = recalcBatch b (b.entries.filter (fun x => ¬ x.id = e.id)) := by
    unfold touchDelete
    rw [if_pos (List.any_eq_true.mpr ⟨e, he, by simp⟩)]
  refine ⟨_, deleteWeight_batches_eq hb, ?_, ?_, ?_, ensureLastOpen_last _ _⟩
  · rw [hscan, List.nil_append, ensureNonEmpty_of_ne hne]
    rw [ensureLastOpen_getElem? _ _ i (by rw [hmaplen]; exact hilt)]
    rw [List.getElem?_map, hib]
    simp [hrecalc]
  · have hflen2 : (b.entries.filter (fun x => !decide (x.id = e.id))).length = BATCH_SIZE - 1 := by
      simpa only [decide_not] using hflen
    simp [recalcBatch, hflen2, BATCH_SIZE]
  · have hflen2 : (b.entries.filter (fun x => !decide (x.id = e.id))).length = BATCH_SIZE - 1 := by
      simpa only [decide_not] using hflen
    simp [recalcBatch, hflen2, BATCH_SIZE]

/-- Witness for C6: deleting entry 1 of the concrete full closed batch. -/
theorem C6_delete_reopens_witness :
    ∃ bs2, (deleteWeight 1 C6state).2.batches = some bs2 ∧
      bs2[0]? = some (recalcBatch C6batchClosed
        (C6batchClosed.entries.filter (fun x => ¬ x.id = 1))) ∧
      (recalcBatch C6batchClosed
        (C6batchClosed.entries.filter (fun x => ¬ x.id = 1))).status = .opened ∧
      (recalcBatch C6batchClosed
        (C6batchClosed.entries.filter (fun x => ¬ x.id = 1))).subtotal = none ∧
      (∀ lb, bs2.getLast? = some lb → lb.status = .opened) := by
  have huniq : ∀ b2 ∈ [C6batchClosed],
      (b2.entries.any (fun x =>
        x.id = ({ id := 1, value := 1, timestamp := 0 } : WeightEntry).id)) = true →
      b2 = C6batchClosed := by
    intro b2 hb2 _
    rcases List.mem_cons.mp hb2 with rfl | hb2
    · rfl
    · cases hb2
  exact C6_delete_reopens C6state [C6batchClosed] 0 C6batchClosed
    { id := 1, value := 1, timestamp := 0 } rfl rfl rfl rfl
    (List.mem_cons_self _ _) (by decide) huniq

/-! ### Claim C2 -/

theorem valuesOK_addWeightCore {P : ℚ → Prop} {v : ℚ} (hP : P v) {bs : List Batch}
    (h : ∀ b ∈ bs, ∀ x ∈ b.entries, P x.value) (now nid : Nat) :
    ∀ bs2, (addWeightCore v now bs nid).batches = some bs2 →
      ∀ b ∈ bs2, ∀ x ∈ b.entries, P x.value := by
  intro bs2 hbs2
  unfold addWeightCore at hbs2
  cases hlast : bs.getLast? with
  | none =>
    rw [hlast] at hbs2
    simp only [Option.some.injEq] at hbs2
    subst hbs2
    exact h
  | some cb =>
    have hcb : cb ∈ bs := by
      rw [← List.dropLast_append_getLast? cb hlast]
      exact List.mem_append_right _ (by simp)
    rw [hlast] at hbs2
    simp only [] at hbs2
    by_cases hcl : cb.status = .closed
    · rw [if_pos hcl] at hbs2
      simp only [Option.some.injEq] at hbs2
      subst hbs2
      intro b hb
      rcases List.mem_append.mp hb with hb | hb
      · exact h b hb
      · rw [List.mem_singleton.mp hb]
        intro x hx
        rw [List.mem_singleton.mp hx]
        exact hP
    · rw [if_neg hcl] at hbs2
      by_cases hcomp : BATCH_SIZE ≤
          (cb.entries ++ [({ id := nid, value := v, timestamp := now } : WeightEntry)]).length
      · rw [if_pos hcomp] at hbs2
        simp only [Option.some.injEq] at hbs2
        subst hbs2
        intro b hb
        rcases List.mem_append.mp hb with hb | hb
        · rcases List.mem_append.mp hb with hb | hb
          · exact h b (List.dropLast_subset bs hb)
          · rw [List.mem_singleton.mp hb]
            intro x hx
            rcases List.mem_append.mp hx with hx | hx
            · exact h cb hcb x hx
            · rw [List.mem_singleton.mp hx]
              exact hP
        · rw [List.mem_singleton.mp hb]
          intro x hx
          cases hx
      · rw [if_neg hcomp] at hbs2
        simp only [Option.some.injEq] at hbs2
        subst hbs2
        intro b hb
        rcases List.mem_append.mp hb with hb | hb
        · exact h b (List.dropLast_subset bs hb)
        · rw [List.mem_singleton.mp hb]
          intro x hx
          rcases List.mem_append.mp hx with hx | hx
          · exact h cb hcb x hx
          · rw [List.mem_singleton.mp hx]
            exact hP

theorem valuesOK_addWeight {P : ℚ → Prop} {v : ℚ} (hP : P v) {s : LedgerState}
    (h : valuesOK P s) (now : Nat) : valuesOK P (addWeight v now s).2 := by
  by_cases hv : v ≤ 0
  · unfold addWeight
    rw [if_pos hv]
    exact h
  · cases hb : s.batches with
    | none =>
      rw [addWeight_eq_none hv hb now]
      exact valuesOK_addWeightCore hP
        (fun b hb2 => by rw [List.mem_singleton.mp hb2]; intro x hx; cases hx) now _
    | some bs =>
      rw [addWeight_eq_some hv hb now]
      exact valuesOK_addWeightCore hP (h bs hb) now _

theorem valuesOK_appendList {P : ℚ → Prop} (vs : List ℚ) (hvs : ∀ v ∈ vs, P v) :
    valuesOK P (appendList vs initState) := by
  induction vs using List.reverseRecOn with
  | nil => intro bs hbs; simp [appendList, initState] at hbs
  | append_singleton vs v ih =>
    unfold appendList at *
    rw [List.foldl_append]
    exact valuesOK_addWeight (hvs v (by simp))
      (ih (fun w hw => hvs w (by simp [hw]))) 0

theorem addWeightCore_fresh (v : ℚ) (now nid0 nid : Nat) :
    addWeightCore v now [createNewBatch nid0] nid =
      { batches := some [{ id := nid0,
                           entries := [{ id := nid, value := v, timestamp := now }],
                           status := .opened, subtotal := none }],
        nextId := nid + 1 } := by
  unfold addWeightCore createNewBatch recalcBatch BATCH_SIZE
  simp

theorem addWeightCore_open {bs : List Batch} {lb : Batch} (hlast : bs.getLast? = some lb)
    (hopen : ¬ lb.status = .closed) (v : ℚ) (now nid : Nat) :
    addWeightCore v now bs nid =
      if BATCH_SIZE ≤ lb.entries.length + 1 then
        { batches := some ((bs.dropLast ++
            [recalcBatch lb (lb.entries ++ [{ id := nid, value := v, timestamp := now }])]) ++
            [createNewBatch (nid + 1)]), nextId := nid + 2 }
      else
        { batches := some (bs.dropLast ++
            [recalcBatch lb (lb.entries ++ [{ id := nid, value := v, timestamp := now }])]),
          nextId := nid + 1 } := by
  unfold addWeightCore
  rw [hlast]
  simp only [if_neg hopen, List.length_append, List.length_singleton]

/-- One positive append advances the append-shape invariant from `n` to
`n + 1`. -/
theorem appendStateInv_addWeight {s : LedgerState} {n : Nat} (h : appendStateInv s n)
    {v : ℚ} (hv : 0 < v) (now : Nat) : appendStateInv (addWeight v now s).2 (n + 1) := by
  have hv2 : ¬ v ≤ 0 := not_le.mpr hv
  rcases h with ⟨hn0, hnone⟩ | ⟨bs, hbs, hlen, hdrop, hlast⟩
  · rw [addWeight_eq_none hv2 hnone now, addWeightCore_fresh]
    subst hn0
    right
    refine ⟨[{ id := s.nextId,
               entries := [{ id := s.nextId + 1, value := v, timestamp := now }],
               status := .opened, subtotal := none }], rfl, rfl, ?_, ?_⟩
    · intro b hb
      simp at hb
    · intro lb hlb
      simp only [List.getLast?_singleton, Option.some.injEq] at hlb
      subst hlb
      exact ⟨rfl, rfl, rfl⟩
  · have hbs_ne : bs ≠ [] := by
      intro hc
      rw [hc] at hlen
      simp at hlen
    obtain ⟨lb, hlb⟩ : ∃ lb, bs.getLast? = some lb := by
      cases hgl : bs.getLast? with
      | none => exact absurd (List.getLast?_eq_none_iff.mp hgl) hbs_ne
      | some lb => exact ⟨lb, rfl⟩
    obtain ⟨hopen, hsub, hcnt⟩ := hlast lb hlb
    have hopen2 : ¬ lb.status = .closed := by rw [hopen]; simp
    rw [addWeight_eq_some hv2 hbs now, addWeightCore_open hlb hopen2 v now s.nextId]
    have hmod : n % 5 < 5 := Nat.mod_lt _ (by norm_num)
    by_cases hfull : BATCH_SIZE ≤ lb.entries.length + 1
    · rw [if_pos hfull]
      rw [hcnt] at hfull
      have h45 : n % 5 = 4 := by
        unfold BATCH_SIZE at hfull
        omega
      right
      refine ⟨_, rfl, ?_, ?_, ?_⟩
      · simp only [List.length_append, List.length_singleton, List.length_dropLast, hlen]
        omega
      · rw [List.dropLast_concat]
        intro b hb
        rcases List.mem_append.mp hb with hb | hb
        · exact hdrop b hb
        · rw [List.mem_singleton.mp hb]
          refine ⟨?_, ?_, ?_⟩
          · simp [recalcBatch]
            unfold BATCH_SIZE at *
            omega
          · simp only [recalcBatch, List.length_append, List.length_singleton]
            rw [hcnt, h45]
            unfold BATCH_SIZE
            omega
          · simp [recalcBatch]
            unfold BATCH_SIZE at *
            omega
      · intro lb2 hlb2
        rw [List.getLast?_concat] at hlb2
        simp only [Option.some.injEq] at hlb2
        subst hlb2
        refine ⟨rfl, rfl, ?_⟩
        simp only [createNewBatch, List.length_nil]
        omega
    · rw [if_neg hfull]
      rw [hcnt] at hfull
      have hcond : ¬ BATCH_SIZE ≤ (lb.entries ++
          [({ id := s.nextId, value := v, timestamp := now } : WeightEntry)]).length := by
        simp only [List.length_append, List.length_singleton]
        rw [hcnt]
        exact hfull
      right
      refine ⟨_, rfl, ?_, ?_, ?_⟩
      · simp only [List.length_append, List.length_singleton, List.length_dropLast, hlen]
        unfold BATCH_SIZE at hfull
        omega
      · rw [List.dropLast_concat]
        exact fun b hb => hdrop b hb
      · intro lb2 hlb2
        rw [List.getLast?_concat] at hlb2
        simp only [Option.some.injEq] at hlb2
        subst hlb2
        refine ⟨?_, ?_, ?_⟩
        · simp [recalcBatch]
          unfold BATCH_SIZE at *
          omega
        · simp [recalcBatch]
          unfold BATCH_SIZE at *
          omega
        · simp only [recalcBatch, List.length_append, List.length_singleton]
          rw [hcnt]
          unfold BATCH_SIZE at hfull
          omega

theorem appendStateInv_appendList (vs : List ℚ) (hv : ∀ v ∈ vs, 0 < v) :
    appendStateInv (appendList vs initState) vs.length := by
  induction vs using List.reverseRecOn with
  | nil => exact Or.inl ⟨rfl, rfl⟩
  | append_singleton vs v ih =>
    unfold appendList at *
    rw [List.foldl_append, List.length_append]
    simp only [List.foldl_cons, List.foldl_nil, List.length_singleton]
    exact appendStateInv_addWeight (ih fun w hw => hv w (by simp [hw])) (hv v (by simp)) 0

theorem closedCount_of_appendInv {bs : List Batch} {n : Nat} (hlen : bs.length = n / 5 + 1)
    (hdrop : ∀ b ∈ bs.dropLast, b.status = .closed ∧ b.entries.length = BATCH_SIZE ∧
      b.subtotal = some (calculateSubtotal b.entries))
    (hlast : ∀ lb, bs.getLast? = some lb → lb.status = .opened ∧ lb.subtotal = none ∧
      lb.entries.length = n % 5) :
    closedCount bs = n / 5 := by
  have hbs_ne : bs ≠ [] := by
    intro hc
    rw [hc] at hlen
    simp at hlen
  obtain ⟨lb, hlb⟩ : ∃ lb, bs.getLast? = some lb := by
    cases hgl : bs.getLast? with
    | none => exact absurd (List.getLast?_eq_none_iff.mp hgl) hbs_ne
    | some lb => exact ⟨lb, rfl⟩
  obtain ⟨hopen, -, -⟩ := hlast lb hlb
  have hdecomp := List.dropLast_append_getLast? lb hlb
  unfold closedCount
  rw [← hdecomp, List.filter_append]
  have h1 : bs.dropLast.filter (fun b => b.status = .closed) = bs.dropLast := by
    rw [List.filter_eq_self]
    intro b hb
    simp [(hdrop b hb).1]
  have h2 : [lb].filter (fun b => b.status = .closed) = [] := by
    simp [List.filter_cons, hopen]
  rw [h1, h2, List.append_nil]
  have : bs.dropLast.length = bs.length - 1 := List.length_dropLast bs
  rw [this, hlen]
  omega

/-- C2 (amended).  For every sequence of positive appends from the initial
state: the number of closed batches is exactly `(number of appends) / 5`
(so each 5th successful append closes exactly one more batch), every
closed batch holds `BATCH_SIZE` entries with `subtotal` equal to the plain
sum of its entry values — which coincides with `safeSum` whenever all
appended values are at the 4-decimal guard precision — and the tail batch
is open with `(number of appends) % 5 < BATCH_SIZE` entries.  (The
original claim stated `subtotal = safeSum(entries)` for arbitrary positive
values; the code stores the plain sum, which differs from `safeSum` below
the guard precision.) -/
theorem C2_append_behaviour (vs : List ℚ) (hv : ∀ v ∈ vs, 0 < v) :
    closedCount (activeBatches (appendList vs initState)) = vs.length / 5 ∧
    (∀ b ∈ activeBatches (appendList vs initState), b.status = .closed →
      b.entries.length = BATCH_SIZE ∧ b.subtotal = some (calculateSubtotal b.entries) ∧
      ((∀ v ∈ vs, fourDec v) →
        b.subtotal = some (safeSum (b.entries.map (fun x => x.value))))) ∧
    (∀ lb, (activeBatches (appendList vs initState)).getLast? = some lb →
      lb.status = .opened ∧ lb.entries.length = vs.length % 5 ∧
      lb.entries.length < BATCH_SIZE) := by
  have hsafe : ∀ (b : Batch), (∀ x ∈ b.entries, fourDec x.value) →
      b.subtotal = some (calculateSubtotal b.entries) →
      b.subtotal = some (safeSum (b.entries.map (fun x => x.value))) := by
    intro b hdec hsub
    rw [hsub, calculateSubtotal_eq, safeSum_eq_sum]
    intro q hq
    obtain ⟨x, hx, hxq⟩ := List.mem_map.mp hq
    rw [← hxq]
    exact hdec x hx
  rcases appendStateInv_appendList vs hv with ⟨hn0, hnone⟩ | ⟨bs, hbs, hlen, hdrop, hlast⟩
  · have hact : activeBatches (appendList vs initState) =
        [createNewBatch (appendList vs initState).nextId] := by
      unfold activeBatches
      rw [hnone]
    rw [hact, hn0]
    refine ⟨by simp [closedCount, createNewBatch], ?_, ?_⟩
    · intro b hb hc
      rw [List.mem_singleton.mp hb] at hc
      exact absurd hc (by simp [createNewBatch])
    · intro lb hlb
      simp only [List.getLast?_singleton, Option.some.injEq] at hlb
      subst hlb
      exact ⟨rfl, rfl, by simp [createNewBatch, BATCH_SIZE]⟩
  · have hbs_ne : bs.length ≠ 0 := by
      rw [hlen]
      omega
    have hact : activeBatches (appendList vs initState) = bs := by
      simp [activeBatches, hbs, hbs_ne]
    rw [hact]
    obtain ⟨lb, hlb⟩ : ∃ lb, bs.getLast? = some lb := by
      cases hgl : bs.getLast? with
      | none =>
        rw [List.getLast?_eq_none_iff] at hgl
        rw [hgl] at hlen
        simp at hlen
      | some lb => exact ⟨lb, rfl⟩
    obtain ⟨hopen, hsubn, hcnt⟩ := hlast lb hlb
    refine ⟨closedCount_of_appendInv hlen hdrop hlast, ?_, ?_⟩
    · intro b hb hc
      rw [← List.dropLast_append_getLast? lb hlb] at hb
      rcases List.mem_append.mp hb with hb | hb
      · obtain ⟨-, hbl, hbsub⟩ := hdrop b hb
        refine ⟨hbl, hbsub, ?_⟩
        intro hdec
        have hvals := valuesOK_appendList vs hdec
        exact hsafe b (hvals bs hbs b (List.dropLast_subset bs hb)) hbsub
      · rw [List.mem_singleton.mp hb] at hc
        rw [hopen] at hc
        exact absurd hc (by simp)
    · intro lb2 hlb2
      rw [hlb] at hlb2
      simp only [Option.some.injEq] at hlb2
      subst hlb2
      exact ⟨hopen, hcnt, by rw [hcnt]; unfold BATCH_SIZE; omega⟩

/-- Witness for C2: three appends of weight 2 leave one open batch of
three entries and no closed batch. -/
theorem C2_append_behaviour_witness :
    closedCount (activeBatches (appendList [2, 2, 2] initState)) = 0 ∧
    (∀ lb, (activeBatches (appendList [2, 2, 2] initState)).getLast? = some lb →
      lb.status = .opened ∧ lb.entries.length = 3 ∧ lb.entries.length < BATCH_SIZE) := by
  have h := C2_append_behaviour [2, 2, 2] (by
    intro v hv
    simp only [List.mem_cons, List.not_mem_nil, or_false] at hv
    rcases hv with rfl | rfl | rfl <;> norm_num)
  exact ⟨h.1, h.2.2⟩

/-- Counterexample for C2 as stated: appending five copies of `1/100000`
(all positive) closes a batch whose stored subtotal is the plain sum
`1/20000`, while `safeSum` of its entries is `0` — the safe-arithmetic
rounding at the 1/10000 guard precision discards each value. -/
theorem C2_counterexample :
    (∀ v ∈ List.replicate 5 ((1 : ℚ)/100000), 0 < v) ∧
    (activeBatches (appendList (List.replicate 5 ((1 : ℚ)/100000)) initState)).head? =
      some { id := 0,
             entries := [{ id := 1, value := 1/100000, timestamp := 0 },
                         { id := 2, value := 1/100000, timestamp := 0 },
                         { id := 3, value := 1/100000, timestamp := 0 },
                         { id := 4, value := 1/100000, timestamp := 0 },
                         { id := 5, value := 1/100000, timestamp := 0 }],
             status := BatchStatus.closed, subtotal := some (1/20000) } ∧
    safeSum [1/100000, 1/100000, 1/100000, 1/100000, 1/100000] = 0 ∧
    ((1 : ℚ)/20000) ≠ 0 := by
  refine ⟨?_, ?_, ?_, by norm_num⟩
  · intro v hv
    rw [List.eq_of_mem_replicate hv]
    norm_num
  · norm_num +decide [appendList, addWeight, addWeightCore, activeBatches, createNewBatch,
      recalcBatch, calculateSubtotal, BATCH_SIZE, initState, List.replicate]
  · norm_num [safeSum, safeAdd, toInt, fromInt, jsRound, PRECISION_FACTOR]

/-! ### Claim C5 -/

theorem fourDec_of_int (m : ℤ) : fourDec (m : ℚ) := by
  unfold fourDec
  have h : ((m : ℚ)) * 10000 = ((m * 10000 : ℤ) : ℚ) := by push_cast; ring
  rw [h, Rat.den_intCast]

/-- C5 (amended).  `getTotalWeight` equals the plain sum of all entry
values of the active key; whenever every stored value is at the 4-decimal
guard precision of the safe-arithmetic layer, this coincides with an
independent `safeSum` recomputation over all entry values.  (The original
claim asserted the `safeSum` equality for arbitrary reachable states; it
fails for values below the guard precision because `getTotalWeight` uses
plain `+` while `safeSum` rounds each operand.) -/
theorem C5_total_weight (s : LedgerState)
    (h : ∀ v ∈ allValues (activeBatches s), fourDec v) :
    getTotalWeight s = (allValues (activeBatches s)).sum ∧
    getTotalWeight s = safeSum (allValues (activeBatches s)) := by
  refine ⟨getTotalWeight_eq_sum s, ?_⟩
  rw [getTotalWeight_eq_sum, safeSum_eq_sum h]

/-- Witness for C5 at the concrete state reached by appending weight 2. -/
theorem C5_total_weight_witness :
    (∀ v ∈ allValues (activeBatches (addWeight 2 0 initState).2), fourDec v) ∧
    getTotalWeight (addWeight 2 0 initState).2 =
      safeSum (allValues (activeBatches (addWeight 2 0 initState).2)) := by
  have hall : allValues (activeBatches (addWeight 2 0 initState).2) = [2] := by
    norm_num +decide [allValues, activeBatches, addWeight, addWeightCore, createNewBatch,
      recalcBatch, BATCH_SIZE, initState]
  have hv : ∀ v ∈ allValues (activeBatches (addWeight 2 0 initState).2), fourDec v := by
    intro v hv
    rw [hall] at hv
    rw [List.mem_singleton.mp hv]
    simpa using fourDec_of_int 2
  exact ⟨hv, (C5_total_weight (addWeight 2 0 initState).2 hv).2⟩

/-- Counterexample for C5 as stated: in the reachable state produced by a
single append of `1/100000`, `getTotalWeight` is `1/100000` but `safeSum`
over the entry values is `0`. -/
theorem C5_counterexample :
    Reachable (addWeight (1/100000) 0 initState).2 ∧
    getTotalWeight (addWeight (1/100000) 0 initState).2 ≠
      safeSum (allValues (activeBatches (addWeight (1/100000) 0 initState).2)) := by
  constructor
  · exact Reachable.step Reachable.init (Step.add (1/100000) 0 initState)
  · have h1 : getTotalWeight (addWeight (1/100000) 0 initState).2 = 1/100000 := by
      norm_num +decide [getTotalWeight, activeBatches, addWeight, addWeightCore,
        createNewBatch, recalcBatch, BATCH_SIZE, initState]
    have h2 : allValues (activeBatches (addWeight (1/100000) 0 initState).2) = [1/100000] := by
      norm_num +decide [allValues, activeBatches, addWeight, addWeightCore, createNewBatch,
        recalcBatch, BATCH_SIZE, initState]
    rw [h1, h2]
    norm_num [safeSum, safeAdd, toInt, fromInt, jsRound, PRECISION_FACTOR]

/-! ### Claim C10 -/

/-- `find?` returns the element at position `i` when it satisfies the
predicate and everything before it does not. -/
theorem find?_eq_of_first {p : Batch → Bool} :
    ∀ (l : List Batch) (i : Nat) (b : Batch), l[i]? = some b → p b = true →
      (∀ j, j < i → ∀ bj, l[j]? = some bj → p bj = false) → l.find? p = some b := by
  intro l
  induction l with
  | nil => intro i b h; cases h
  | cons x xs ih =>
    intro i b hib hpb hprev
    cases i with
    | zero =>
      simp only [List.getElem?_cons_zero, Option.some.injEq] at hib
      subst hib
      exact List.find?_cons_of_pos xs hpb
    | succ i =>
      have hx : p x = false := hprev 0 (Nat.succ_pos i) x (by simp)
      rw [List.find?_cons_of_neg xs (by simp [hx])]
      refine ih i b (by simpa using hib) hpb ?_
      intro j hj bj hbj
      exact hprev (j + 1) (by omega) bj (by simpa using hbj)

theorem C10state_eq : C10state =
    { batches := some [C10reopened, C10tail], nextId := 8 } := by
  norm_num +decide [C10state, C10reopened, C10tail, addWeight, addWeightCore, deleteWeight,
    deleteScan, ensureNonEmpty, ensureLastOpen, createNewBatch, recalcBatch,
    calculateSubtotal, BATCH_SIZE, initState]

/-- C10 (amended).  `getCurrentBatch` returns the *first* open batch of the
active sequence; consequently, in the reachable state `C10state`, where a
delete has reopened the non-tail first batch while the open tail batch
remains, it returns that earlier reopened batch rather than the tail — the
displayed current batch is a non-tail batch.  (New appends, however, still
always target the tail batch; see the counterexample.) -/
theorem C10_current_batch :
    (∀ (s : LedgerState) (i : Nat) (b : Batch), (activeBatches s)[i]? = some b →
      b.status = .opened →
      (∀ j, j < i → ∀ bj, (activeBatches s)[j]? = some bj → bj.status = .closed) →
      getCurrentBatch s = some b) ∧
    (Reachable C10state ∧ getCurrentBatch C10state = some C10reopened ∧
      (activeBatches C10state).getLast? = some C10tail ∧ C10reopened ≠ C10tail) := by
  constructor
  · intro s i b hib hopen hfirst
    unfold getCurrentBatch
    refine find?_eq_of_first (activeBatches s) i b hib (by simp [hopen]) ?_
    intro j hj bj hbj
    simp [hfirst j hj bj hbj]
  · refine ⟨?_, ?_, ?_, ?_⟩
    · exact Reachable.step
        (Reachable.step
          (Reachable.step
            (Reachable.step
              (Reachable.step
                (Reachable.step
                  (Reachable.step Reachable.init (Step.add 1 0 _))
                  (Step.add 2 0 _))
                (Step.add 3 0 _))
              (Step.add 4 0 _))
            (Step.add 5 0 _))
          (Step.add 6 0 _))
        (Step.del 1 _)
    · rw [C10state_eq]
      simp [getCurrentBatch, activeBatches, List.find?_cons, C10reopened]
    · rw [C10state_eq]
      simp [activeBatches, C10reopened, C10tail]
    · simp [C10reopened, C10tail]

/-- Witness for C10: the first-open-batch property instantiated at
`C10state`, index 0 and the reopened batch. -/
theorem C10_current_batch_witness :
    getCurrentBatch C10state = some C10reopened := by
  refine (C10_current_batch).1 C10state 0 C10reopened ?_ rfl ?_
  · rw [C10state_eq]
    simp [activeBatches]
  · intro j hj bj hbj
    omega

/-- Counterexample for C10 as stated: at `C10state` the displayed current
batch is the non-tail reopened batch, but appending the weight 7 places
the new entry (id 8) in the **tail** batch and leaves the reopened batch
untouched — new appends never refer to the non-tail current batch. -/
theorem C10_counterexample :
    Reachable C10state ∧
    getCurrentBatch C10state = some C10reopened ∧
    (activeBatches C10state).getLast? = some C10tail ∧
    C10reopened ≠ C10tail ∧
    (addWeight 7 0 C10state).2.batches =
      some [C10reopened,
            { id := 6,
              entries := [{ id := 7, value := 6, timestamp := 0 },
                          { id := 8, value := 7, timestamp := 0 }],
              status := BatchStatus.opened, subtotal := none }] ∧
    C10reopened.entries.all (fun x => ¬ x.id = 8) = true := by
  refine ⟨?_, ?_, ?_, ?_, ?_, by decide⟩
  · exact Reachable.step
      (Reachable.step
        (Reachable.step
          (Reachable.step
            (Reachable.step
              (Reachable.step
                (Reachable.step Reachable.init (Step.add 1 0 _))
                (Step.add 2 0 _))
              (Step.add 3 0 _))
            (Step.add 4 0 _))
          (Step.add 5 0 _))
        (Step.add 6 0 _))
      (Step.del 1 _)
  · rw [C10state_eq]
    simp [getCurrentBatch, activeBatches, List.find?_cons, C10reopened]
  · rw [C10state_eq]
    simp [activeBatches, C10reopened, C10tail]
  · simp [C10reopened, C10tail]
  · rw [C10state_eq]
    norm_num +decide [addWeight, addWeightCore, createNewBatch, recalcBatch,
      calculateSubtotal, BATCH_SIZE, C10reopened, C10tail]

/-! ### Claim C9 -/

/-- C9.  The pinned equalities `safeAdd(0.1, 0.2) = 0.3` and
`safeMult(10.55, 1.5) = 15.825` hold; `safeAdd`/`safeSub` scale both
operands by 10000, round each to the nearest integer (JS `Math.round`),
combine and divide back; `safeMult` scales each operand by 100, rounds,
multiplies and divides by 100 × 100; `roundToTwo` adds the machine-epsilon
`2^(-52)` before rounding to two decimals, and resolves the boundary
values 2.345 and 2.355 deterministically (to 2.35 and 2.36 in the
exact-rational embedding). -/
theorem C9_safe_arithmetic :
    safeAdd (1/10) (2/10) = 3/10 ∧
    safeMult (1055/100) (3/2) = 15825/1000 ∧
    (∀ a b : ℚ, safeAdd a b =
      ((jsRound (a * 10000) + jsRound (b * 10000) : ℤ) : ℚ) / 10000) ∧
    (∀ a b : ℚ, safeSub a b =
      ((jsRound (a * 10000) - jsRound (b * 10000) : ℤ) : ℚ) / 10000) ∧
    (∀ a b : ℚ, safeMult a b =
      ((jsRound (a * 100) * jsRound (b * 100) : ℤ) : ℚ) / (100 * 100)) ∧
    (∀ x : ℚ, roundToTwo x = ((jsRound ((x + 1 / 2 ^ 52) * 100) : ℤ) : ℚ) / 100) ∧
    roundToTwo (2345/1000) = 47/20 ∧
    roundToTwo (2355/1000) = 59/25 := by
  refine ⟨?_, ?_, ?_, ?_, ?_, ?_, ?_, ?_⟩
  · norm_num [safeAdd, toInt, fromInt, jsRound, PRECISION_FACTOR]
  · norm_num [safeMult, jsRound]
  · intro a b
    rfl
  · intro a b
    rfl
  · intro a b
    rfl
  · intro x
    rfl
  · norm_num [roundToTwo, jsRound, EPSILON]
  · norm_num [roundToTwo, jsRound, EPSILON]

/-! ### Claims C3 and C4 -/

theorem buildBreakdown_inv (weights prices : List (String × ℚ)) :
    ∀ (cats : List SCategory) (acc : List CategoryLine × ℚ × ℚ),
      (∀ line ∈ acc.1, lineOK weights prices line) →
      acc.2.1 = grossOf acc.1 →
      (∀ line ∈ (cats.foldl (buildStep weights prices) acc).1, lineOK weights prices line) ∧
      (cats.foldl (buildStep weights prices) acc).2.1 =
        grossOf (cats.foldl (buildStep weights prices) acc).1 := by
  intro cats
  induction cats with
  | nil => intro acc h1 h2; exact ⟨h1, h2⟩
  | cons c cs ih =>
    intro acc h1 h2
    rw [List.foldl_cons]
    apply ih
    · simp only [buildStep]
      by_cases hw : 0 < lookup0 weights c.id
      · rw [if_pos hw]
        intro line hl
        rcases List.mem_append.mp hl with hl | hl
        · exact h1 line hl
        · rw [List.mem_singleton.mp hl]
          exact ⟨hw, rfl, rfl, rfl⟩
      · rw [if_neg hw]
        exact h1
    · simp only [buildStep]
      by_cases hw : 0 < lookup0 weights c.id
      · rw [if_pos hw]
        unfold grossOf at h2 ⊢
        rw [List.foldl_append, ← h2]
        simp
      · rw [if_neg hw]
        exact h2

/-- C3 (amended).  Every included settlement line has positive aggregated
weight (zero-weight categories are excluded), the unit price defaulting to
0 and `subtotal = roundToTwo(safeMult(weight, unitPrice))`;
`grossTotal = roundToTwo` of the `safeAdd`-accumulation of the
**unrounded** products `safeMult(weight, unitPrice)` (not of the rounded
per-line subtotals, as the original claim said);
`freightTotal = safeMult(totalWeight, freightRate)` with no extra
rounding; and `finalAmount = roundToTwo(safeAdd(safeSub(G, freightTotal),
sackValue))` where `G` is that same unrounded accumulation. -/
theorem C3_settlement_summary (categories : List SCategory) (entityId : String)
    (bk : List ((String × String) × List Batch)) (sd : SettlementData) :
    (∀ line ∈ (settlementSummary categories entityId bk sd).categoryBreakdown,
      lineOK (weightsByCategory entityId bk) sd.prices line) ∧
    (settlementSummary categories entityId bk sd).grossTotal =
      roundToTwo (grossOf (settlementSummary categories entityId bk sd).categoryBreakdown) ∧
    (settlementSummary categories entityId bk sd).freightTotal =
      safeMult (settlementSummary categories entityId bk sd).totalWeight sd.freightRate ∧
    (settlementSummary categories entityId bk sd).finalAmount =
      roundToTwo (safeAdd (safeSub
        (grossOf (settlementSummary categories entityId bk sd).categoryBreakdown)
        (settlementSummary categories entityId bk sd).freightTotal) sd.sackValue) := by
  obtain ⟨h1, h2⟩ := buildBreakdown_inv (weightsByCategory entityId bk) sd.prices categories
    ([], 0, 0) (by intro line hl; cases hl) (by simp [grossOf])
  refine ⟨h1, ?_, rfl, ?_⟩
  · show roundToTwo (buildBreakdown (weightsByCategory entityId bk) sd.prices categories).2.1 =
      roundToTwo (grossOf (buildBreakdown (weightsByCategory entityId bk) sd.prices
        categories).1)
    rw [buildBreakdown, h2]
  · show roundToTwo (safeAdd (safeSub
        (buildBreakdown (weightsByCategory entityId bk) sd.prices categories).2.1 _) _) = _
    rw [buildBreakdown, h2]
    rfl

/-- Witness for C3 at the concrete one-category input. -/
theorem C3_settlement_summary_witness :
    (settlementSummary C3wCats "E" C3wBk C3wSd).categoryBreakdown =
      [{ categoryId := "a", categoryName := "A", categoryColor := "red",
         totalWeight := 2, unitPrice := 3, subtotal := 6 }] ∧
    ({ categoryId := "a", categoryName := "A", categoryColor := "red",
       totalWeight := 2, unitPrice := 3, subtotal := 6 } : CategoryLine).subtotal =
      roundToTwo (safeMult 2 3) ∧
    (settlementSummary C3wCats "E" C3wBk C3wSd).grossTotal =
      roundToTwo (grossOf (settlementSummary C3wCats "E" C3wBk C3wSd).categoryBreakdown) := by
  have hbd : (settlementSummary C3wCats "E" C3wBk C3wSd).categoryBreakdown =
      [{ categoryId := "a", categoryName := "A", categoryColor := "red",
         totalWeight := 2, unitPrice := 3, subtotal := 6 }] := by
    norm_num +decide [settlementSummary, buildBreakdown, buildStep, weightsByCategory,
      safeSum, safeAdd, safeMult, roundToTwo, toInt, fromInt, jsRound, PRECISION_FACTOR,
      EPSILON, C3wCats, C3wBk, C3wSd, lookup0]
  have h := C3_settlement_summary C3wCats "E" C3wBk C3wSd
  refine ⟨hbd, ?_, h.2.1⟩
  have hline := h.1 _ (by rw [hbd]; exact List.mem_singleton_self _)
  exact hline.2.2.2

/-- Counterexample for C3 as stated: with two lines of unrounded product
1.005 (each displayed as 1.01 after rounding), the summary's `grossTotal`
and `finalAmount` are 2.01, while the claim's accumulation of the rounded
per-line subtotals yields 2.02. -/
theorem C3_counterexample :
    (settlementSummary C3cCats "E" C3cBk C3cSd).grossTotal = 201/100 ∧
    (settlementSummary C3cCats "E" C3cBk C3cSd).finalAmount = 201/100 ∧
    grossTotal_spec (settlementSummary C3cCats "E" C3cBk C3cSd).categoryBreakdown = 202/100 ∧
    roundToTwo (safeAdd (safeSub
      (grossTotal_spec (settlementSummary C3cCats "E" C3cBk C3cSd).categoryBreakdown)
      (settlementSummary C3cCats "E" C3cBk C3cSd).freightTotal)
      C3cSd.sackValue) = 202/100 ∧
    ((201 : ℚ)/100) ≠ 202/100 := by
  refine ⟨?_, ?_, ?_, ?_, by norm_num⟩ <;>
    norm_num +decide [settlementSummary, buildBreakdown, buildStep, weightsByCategory,
      grossTotal_spec, safeSum, safeAdd, safeSub, safeMult, roundToTwo, toInt, fromInt,
      jsRound, PRECISION_FACTOR, EPSILON, C3cCats, C3cBk, C3cSd, lookup0]

/-- C4.  The pinned settlement scenario: `grossTotal = 350`,
`totalWeight = 150`, `freightTotal = 75`, `finalAmount = 295`. -/
theorem C4_settlement_scenario :
    (settlementSummary C4cats "E" C4bk C4sd).grossTotal = 350 ∧
    (settlementSummary C4cats "E" C4bk C4sd).totalWeight = 150 ∧
    (settlementSummary C4cats "E" C4bk C4sd).freightTotal = 75 ∧
    (settlementSummary C4cats "E" C4bk C4sd).finalAmount = 295 := by
  refine ⟨?_, ?_, ?_, ?_⟩ <;>
    norm_num +decide [settlementSummary, buildBreakdown, buildStep, weightsByCategory,
      safeSum, safeAdd, safeSub, safeMult, roundToTwo, toInt, fromInt, jsRound,
      PRECISION_FACTOR, EPSILON, C4cats, C4bk, C4sd, lookup0]

end SHPL
